import Mathlib

/-!
Shallow embedding of core components of the webrana-cli agent engine
(Rust sources under src/), together with theorems settling the stated
properties of each component.

Components covered:
* `core/safety.rs`   - command risk classification and path validation
* `skills/shell.rs`  - the execute_command skill gate (allowlist + risk)
* `memory/mod.rs`    - the context buffer (optimize, budget projection)
* `mcp/registry.rs`  - the MCP tool reverse map
* `llm/client.rs`    - the tool-call loop result formatting
* `llm/cache.rs`     - the response cache
* `core/rate_limit.rs` - the token-bucket rate limiter

Rust strings are modelled as Lean `String`; Rust `str::len` (bytes) is
`String.utf8ByteSize`; `f64` arithmetic in the rate limiter is modelled
over `ℚ`; wall-clock instants are explicit `Nat`/`ℚ` parameters.
-/

namespace Webrana

/-- Boolean test that one character list is a prefix of another
(component of Rust `str::starts_with` / `str::contains`). -/
def prefixChars : List Char → List Char → Bool
  | [], _ => true
  | _ :: _, [] => false
  | a :: as, b :: bs => a == b && prefixChars as bs

/-- Boolean substring containment on character lists.  For valid UTF-8,
Rust byte-level `str::contains` agrees with character-level containment
(a needle never starts or ends inside a multi-byte character). -/
def infixChars : List Char → List Char → Bool
  | needle, [] => needle.isEmpty
  | needle, c :: rest => prefixChars needle (c :: rest) || infixChars needle rest

/-- Rust `haystack.contains(needle)`. -/
def strContains (hay needle : String) : Bool :=
  infixChars needle.data hay.data

/-- Rust `haystack.starts_with(needle)`. -/
def strStartsWith (hay needle : String) : Bool :=
  prefixChars needle.data hay.data

/-- Rust `str::to_lowercase` (per-character; the strings involved are ASCII). -/
def lowerStr (s : String) : String :=
  String.mk (s.data.map Char.toLower)

/-- Rust `command.split_whitespace().next().unwrap_or("")`. -/
def firstToken (s : String) : String :=
  String.mk ((s.data.dropWhile Char.isWhitespace).takeWhile (fun c => !c.isWhitespace))

/-- Message role (`llm/providers.rs`). -/
inductive Role where
  | system
  | user
  | assistant
deriving DecidableEq

/-- A chat message (`llm/providers.rs::Message`). -/
structure Message where
  role : Role
  content : String
deriving DecidableEq

def Message.system (c : String) : Message := ⟨Role.system, c⟩

def Message.user (c : String) : Message := ⟨Role.user, c⟩

def Message.assistant (c : String) : Message := ⟨Role.assistant, c⟩

/-- Rust `String::len` - the UTF-8 byte length. -/
def byteLen (s : String) : Nat := s.utf8ByteSize

/-! ## Safety module (`core/safety.rs`) -/

/-- `core/safety.rs::SecurityConfig`.  The working directory is modelled
as the component list of an absolute path. -/
structure SecurityConfig where
  working_dir : List String
  allow_global_access : Bool
  blocked_commands : List String
  dangerous_patterns : List String
  sensitive_files : List String
  max_file_size : Nat
  require_confirmation : Bool

/-- The blocked-command set of `SecurityConfig::default` (a `HashSet` in
Rust; modelled as a list in insertion order). -/
def defaultBlockedCommands : List String :=
  ["rm -rf /", "rm -rf /*", "mkfs", "dd if=/dev/zero", ":(){:|:&};:",
   "chmod -R 777 /", "chown -R"]

/-- The dangerous-pattern list of `SecurityConfig::default`. -/
def defaultDangerousPatterns : List String :=
  ["rm -rf", "rm -fr", "> /dev/sd", "mkfs.", ":(){ :|:& };:",
   "curl | bash", "curl | sh", "wget | bash", "wget | sh", "> /etc/",
   "chmod 777", "chmod -R 777"]

/-- The sensitive-file list of `SecurityConfig::default`. -/
def defaultSensitiveFiles : List String :=
  ["/etc/passwd", "/etc/shadow", "/etc/sudoers", ".ssh/id_rsa",
   ".ssh/id_ed25519", ".aws/credentials", ".env", ".netrc", ".pgpass",
   ".docker/config.json"]

/-- `SecurityConfig::default`, parameterized by the current working
directory (Rust reads it from the environment). -/
def SecurityConfig.default (wd : List String) : SecurityConfig where
  working_dir := wd
  allow_global_access := false
  blocked_commands := defaultBlockedCommands
  dangerous_patterns := defaultDangerousPatterns
  sensitive_files := defaultSensitiveFiles
  max_file_size := 10 * 1024 * 1024
  require_confirmation := true

/-- `core/safety.rs::CommandRisk`. -/
inductive CommandRisk where
  | Low
  | Medium (reason : String)
  | High (reason : String)
  | Blocked (reason : String)
deriving DecidableEq

/-- The `high_risk` pattern array of `assess_command_risk`. -/
def highRiskPatterns : List String :=
  ["sudo", "su ", "doas", "rm ", "rmdir", "unlink", "mv ", "cp ", "chmod",
   "chown", "chgrp", "kill", "pkill", "killall", "shutdown", "reboot",
   "halt", "systemctl", "service", "iptables", "firewall", "mount",
   "umount", "fdisk", "parted", "useradd", "userdel", "usermod", "passwd",
   "crontab", "curl", "wget", "ssh", "scp", "docker", "podman",
   "git push", "git remote"]

/-- The `medium_risk` pattern array of `assess_command_risk`. -/
def mediumRiskPatterns : List String :=
  ["git ", "npm ", "cargo ", "pip ", "make", "cmake", "apt", "yum", "dnf",
   "brew", "cat ", "head ", "tail ", "grep ", "find ", "locate", "echo ",
   "printf", "touch ", "mkdir ", "sed ", "awk ", "tar ", "zip ", "unzip"]

/-- The `low_risk` pattern array of `assess_command_risk`. -/
def lowRiskPatterns : List String :=
  ["ls", "pwd", "whoami", "date", "cal", "cat ", "less ", "more ",
   "head ", "tail ", "wc ", "sort ", "uniq ", "ps ", "top", "htop",
   "df ", "du ", "env", "printenv", "which ", "whereis ", "type ",
   "file ", "stat ", "git status", "git log", "git diff", "git branch",
   "cargo check", "cargo test", "cargo build", "npm list", "npm info"]

/-- `InputSanitizer::assess_command_risk`: high-risk scan, then
medium-risk scan, then low-risk scan, else Medium with a note. -/
def assessCommandRisk (command : String) : CommandRisk :=
  let cl := lowerStr command
  match highRiskPatterns.find? (fun p => strContains cl p) with
  | some p => CommandRisk.High ("Contains high-risk command: " ++ p)
  | none =>
    match mediumRiskPatterns.find? (fun p => strContains cl p) with
    | some p => CommandRisk.Medium ("Contains modification command: " ++ p)
    | none =>
      if lowRiskPatterns.any
          (fun p => strStartsWith cl p || strContains cl (" " ++ p)) then
        CommandRisk.Low
      else
        CommandRisk.Medium "Unknown command - treating as medium risk"

/-- `InputSanitizer::validate_command`: blocklist scan (error), dangerous
pattern scan (High), then `assess_command_risk`. -/
def validateCommand (cfg : SecurityConfig) (command : String) :
    Except String CommandRisk :=
  let cl := lowerStr command
  match cfg.blocked_commands.find? (fun b => strContains cl (lowerStr b)) with
  | some b => Except.error ("Command blocked: contains dangerous pattern " ++ b)
  | none =>
    match cfg.dangerous_patterns.find?
        (fun p => strContains cl (lowerStr p)) with
    | some p =>
      Except.ok (CommandRisk.High ("Command contains dangerous pattern: " ++ p))
    | none => Except.ok (assessCommandRisk command)

/-! ## Shell skill (`skills/shell.rs::ExecuteCommandSkill::execute`) -/

/-- The `settings.safety` section (`config/settings.rs::SafetyConfig`). -/
structure SafetySettings where
  confirm_file_write : Bool
  confirm_file_delete : Bool
  confirm_shell_execute : Bool
  allowed_commands : List String
  blocked_paths : List String

/-- Outcome of the pure prefix of `ExecuteCommandSkill::execute`:
either the skill bails with an error before reaching the spawn step, or
it reaches the spawn step with the given command and assessed risk. -/
inductive ExecDecision where
  | denied (msg : String)
  | spawn (risk : CommandRisk) (command : String)
deriving DecidableEq

/-- The risk-gate tail of `execute` (Security Layer 2): `validate_command`,
then bail on `Blocked`, otherwise proceed to the spawn step. -/
def riskGate (cfg : SecurityConfig) (command : String) : ExecDecision :=
  match validateCommand cfg command with
  | Except.error e => ExecDecision.denied e
  | Except.ok risk =>
    match risk with
    | CommandRisk.Blocked reason => ExecDecision.denied ("BLOCKED: " ++ reason)
    | _ => ExecDecision.spawn risk command

/-- `ExecuteCommandSkill::execute` up to the spawn step: Security Layer 1
(the allowlist gate over the first whitespace-separated token, active only
when `allowed_commands` is non-empty), then Security Layer 2 (`riskGate`). -/
def executeCommandGate (safety : SafetySettings) (cfg : SecurityConfig)
    (command : String) : ExecDecision :=
  if !safety.allowed_commands.isEmpty
      && !safety.allowed_commands.contains (firstToken command) then
    ExecDecision.denied
      ("SECURITY: Command " ++ firstToken command ++ " not in allowed list")
  else
    riskGate cfg command

/-- True when the decision is a denial (no child process is spawned). -/
def ExecDecision.isDenied : ExecDecision → Bool
  | ExecDecision.denied _ => true
  | ExecDecision.spawn _ _ => false

/-! ## Context buffer (`memory/mod.rs`) -/

/-- `memory/mod.rs::ContextConfig`. -/
structure ContextConfig where
  max_messages : Nat
  max_chars : Nat
  min_recent_messages : Nat
  enable_summarization : Bool

/-- `memory/mod.rs::Context`: ordered message list (oldest first) plus the
aggregate character (byte) count. -/
structure Context where
  messages : List Message
  config : ContextConfig
  total_chars : Nat

/-- First loop of `Context::optimize`: evict the oldest message while the
count exceeds `max_messages` (Rust `saturating_sub` is `Nat` subtraction). -/
def trimByCount (maxMessages : Nat) : List Message → Nat → List Message × Nat
  | [], total => ([], total)
  | m :: rest, total =>
    if (m :: rest).length > maxMessages then
      trimByCount maxMessages rest (total - byteLen m.content)
    else (m :: rest, total)

/-- Second loop of `Context::optimize`: evict the oldest message while the
character total exceeds `max_chars` and more than `min_recent_messages`
messages remain. -/
def trimByChars (maxChars minRecent : Nat) :
    List Message → Nat → List Message × Nat
  | [], total => ([], total)
  | m :: rest, total =>
    if total > maxChars && (m :: rest).length > minRecent then
      trimByChars maxChars minRecent rest (total - byteLen m.content)
    else (m :: rest, total)

/-- `Context::optimize`. -/
def Context.optimize (ctx : Context) : Context :=
  let p1 := trimByCount ctx.config.max_messages ctx.messages ctx.total_chars
  let p2 := trimByChars ctx.config.max_chars ctx.config.min_recent_messages
    p1.1 p1.2
  { ctx with messages := p2.1, total_chars := p2.2 }

/-- `Context::add_message`: push, account the byte length, optimize. -/
def Context.addMessage (ctx : Context) (m : Message) : Context :=
  Context.optimize
    { ctx with
        messages := ctx.messages ++ [m]
        total_chars := ctx.total_chars + byteLen m.content }

/-- An empty context with the given configuration. -/
def Context.empty (cfg : ContextConfig) : Context :=
  ⟨[], cfg, 0⟩

/-- Rust byte slice `&s[..k]`: the prefix of `s` of byte length `k`, or
`none` (a panic) when `k` is not a character boundary or exceeds the
length. -/
def takeBytes : List Char → Nat → Option (List Char)
  | _, 0 => some []
  | [], _ + 1 => none
  | c :: cs, k + 1 =>
    if c.utf8Size ≤ k + 1 then
      (takeBytes cs (k + 1 - c.utf8Size)).map (fun l => c :: l)
    else none

/-- Rust `s[..k].to_string()` on a `String`, `none` on panic. -/
def byteSlice (s : String) (k : Nat) : Option String :=
  (takeBytes s.data k).map String.mk

/-- The loop of `Context::get_messages_for_budget`, walking the messages
newest-first; `none` models the byte-slice panic. -/
def budgetLoop (maxChars : Nat) :
    List Message → Nat → List Message → Option (List Message)
  | [], _, result => some result
  | msg :: rest, chars, result =>
    if chars + byteLen msg.content ≤ maxChars then
      budgetLoop maxChars rest (chars + byteLen msg.content) (result ++ [msg])
    else if result.isEmpty then
      if byteLen msg.content > maxChars then
        (byteSlice msg.content maxChars).map
          (fun t => result ++ [{ msg with content := t }])
      else some (result ++ [msg])
    else some result

/-- `Context::get_messages_for_budget`. -/
def Context.getMessagesForBudget (ctx : Context) (maxChars : Nat) :
    Option (List Message) :=
  (budgetLoop maxChars ctx.messages.reverse 0 []).map List.reverse

/-! ## MCP registry (`mcp/registry.rs`) -/

/-- Association-list insert with the overwrite semantics of
`HashMap::insert` (an existing key is replaced in place). -/
def alInsert {α β : Type} [DecidableEq α] (k : α) (v : β) :
    List (α × β) → List (α × β)
  | [] => [(k, v)]
  | (k2, v2) :: rest =>
    if k2 = k then (k, v) :: rest else (k2, v2) :: alInsert k v rest

/-- Association-list lookup (`HashMap::get`). -/
def alLookup {α β : Type} [DecidableEq α] (k : α) :
    List (α × β) → Option β
  | [] => none
  | (k2, v2) :: rest => if k2 = k then some v2 else alLookup k rest

/-- Association-list removal (`HashMap::remove`). -/
def alRemove {α β : Type} [DecidableEq α] (k : α) :
    List (α × β) → List (α × β)
  | [] => []
  | (k2, v2) :: rest =>
    if k2 = k then rest else (k2, v2) :: alRemove k rest

/-- `mcp/registry.rs::McpRegistry`: the connected client names and the
reverse map `tool_name → server_name`. -/
structure McpRegistry where
  clients : List String
  tool_map : List (String × String)

/-- The empty registry (`McpRegistry::new`). -/
def McpRegistry.empty : McpRegistry := ⟨[], []⟩

/-- `McpRegistry::add_server` after the child process handshake: `tools`
is the array returned by `tools/list`; each tool name is inserted into the
reverse map (overwriting on collision), then the client is recorded. -/
def McpRegistry.addServer (reg : McpRegistry) (name : String)
    (tools : List String) : McpRegistry :=
  { clients := reg.clients ++ [name]
    tool_map := tools.foldl (fun m t => alInsert t name m) reg.tool_map }

/-- `McpRegistry::call_tool` up to the routing decision: look the tool up
in the reverse map and route to the recorded server. -/
def McpRegistry.callToolRoute (reg : McpRegistry) (toolName : String) :
    Except String String :=
  match alLookup toolName reg.tool_map with
  | none => Except.error ("Tool " ++ toolName ++ " not found")
  | some server =>
    if reg.clients.contains server then Except.ok server
    else Except.error ("Server " ++ server ++ " not connected")

/-! ## Tool-call loop (`llm/client.rs::chat_with_tools_loop`) -/

/-- `llm/providers.rs::ToolCall` (arguments kept opaque). -/
structure ToolCall where
  id : String
  name : String
  arguments : String
deriving DecidableEq

/-- The tool-result wrapper built by `chat_with_tools_loop`:
`format!("<tool_result tool_use_id=\"{}\">\n{}\n</tool_result>", id, result)`. -/
def fmtToolResult (id result : String) : String :=
  "<tool_result tool_use_id=\"" ++ id ++ "\">\n" ++ result ++ "\n</tool_result>"

/-- The result string pushed for one call: the skill output on success,
`Error: {e}` on failure. -/
def toolResultString (exec : ToolCall → Except String String)
    (c : ToolCall) : String :=
  match exec c with
  | Except.ok output => output
  | Except.error e => "Error: " ++ e

/-- The user message appended to the history for one tool call. -/
def toolResultMessage (exec : ToolCall → Except String String)
    (c : ToolCall) : Message :=
  Message.user (fmtToolResult c.id (toolResultString exec c))

/-- An observable event of the tool loop: a skill execution or a history
append, in the order they happen. -/
inductive ToolEvent where
  | exec (c : ToolCall)
  | append (m : Message)
deriving DecidableEq

/-- The `for tool_call in &response.tool_calls` loop: execute the call,
then push its result message, then move to the next call.  `history` and
`events` are the accumulated history and event log. -/
def toolLoopBody (exec : ToolCall → Except String String) :
    List ToolCall → List Message → List ToolEvent →
    List Message × List ToolEvent
  | [], history, events => (history, events)
  | c :: rest, history, events =>
    toolLoopBody exec rest (history ++ [toolResultMessage exec c])
      (events ++ [ToolEvent.exec c, ToolEvent.append (toolResultMessage exec c)])

/-- One model turn with tool calls: push the assistant message, then run
the tool-call loop. -/
def processToolTurn (exec : ToolCall → Except String String)
    (history : List Message) (content : String) (calls : List ToolCall) :
    List Message × List ToolEvent :=
  toolLoopBody exec calls (history ++ [Message.assistant content]) []

/-! ## Response cache (`llm/cache.rs`) -/

/-- `llm/cache.rs::CacheEntry` (`created_at` is a `Nat` instant). -/
structure CacheEntry where
  response : String
  created_at : Nat
  hits : Nat
deriving DecidableEq

/-- Cache capacity and TTL (fields of `ResponseCache`). -/
structure CacheCfg where
  max_entries : Nat
  ttl : Nat

/-- Eviction rank (`evict_oldest`): expired entries order first, then
lower hit counts. -/
def entryRank (cfg : CacheCfg) (now : Nat) (e : CacheEntry) : Nat × Nat :=
  (if cfg.ttl ≤ now - e.created_at then 0 else 1, e.hits)

/-- Lexicographic comparison of eviction ranks. -/
def rankLe (a b : Nat × Nat) : Bool :=
  a.1 < b.1 || (a.1 = b.1 && a.2 ≤ b.2)

/-- `Iterator::min_by` over the entry map: the first entry of minimal
rank (the map itself is unordered; the list fixes one linearization). -/
def minByRank (cfg : CacheCfg) (now : Nat) :
    List (Nat × CacheEntry) → Option (Nat × CacheEntry)
  | [] => none
  | (k, e) :: rest =>
    match minByRank cfg now rest with
    | none => some (k, e)
    | some (k2, e2) =>
      if rankLe (entryRank cfg now e) (entryRank cfg now e2) then some (k, e)
      else some (k2, e2)

/-- `ResponseCache::evict_oldest`. -/
def evictOldest (cfg : CacheCfg) (now : Nat)
    (entries : List (Nat × CacheEntry)) : List (Nat × CacheEntry) :=
  match minByRank cfg now entries with
  | some (k, _) => alRemove k entries
  | none => entries

/-- `ResponseCache::get` keyed by the message hash: a fresh entry counts a
hit and returns the response; an expired entry is removed. -/
def cacheGet (cfg : CacheCfg) (hashFn : List Message → Nat)
    (m : List Message) (now : Nat) (entries : List (Nat × CacheEntry)) :
    Option String × List (Nat × CacheEntry) :=
  let k := hashFn m
  match alLookup k entries with
  | some e =>
    if now - e.created_at < cfg.ttl then
      (some e.response, alInsert k { e with hits := e.hits + 1 } entries)
    else (none, alRemove k entries)
  | none => (none, entries)

/-- `ResponseCache::set`: evict when at capacity, then insert the fresh
entry (timestamp `now`, zero hits). -/
def cacheSet (cfg : CacheCfg) (hashFn : List Message → Nat)
    (m : List Message) (r : String) (now : Nat)
    (entries : List (Nat × CacheEntry)) : List (Nat × CacheEntry) :=
  let base :=
    if cfg.max_entries ≤ entries.length then evictOldest cfg now entries
    else entries
  alInsert (hashFn m) ⟨r, now, 0⟩ base

/-- An operation against the cache, with its wall-clock instant. -/
inductive CacheOp where
  | set (m : List Message) (r : String) (now : Nat)
  | get (m : List Message) (now : Nat)
  | clear
deriving DecidableEq

/-- One cache operation applied to the entry map. -/
def cacheStep (cfg : CacheCfg) (hashFn : List Message → Nat)
    (entries : List (Nat × CacheEntry)) (op : CacheOp) :
    List (Nat × CacheEntry) :=
  match op with
  | CacheOp.set m r now => cacheSet cfg hashFn m r now entries
  | CacheOp.get m now => (cacheGet cfg hashFn m now entries).2
  | CacheOp.clear => []

/-- Side conditions on an intervening operation sequence relative to the
entry stored under key `k` at time `t0`: no `clear`; every `set` is for a
non-colliding key and happens while the cache is below capacity; every
colliding `get` happens within the TTL (as any get before the final
within-TTL get does, since wall time is monotone). -/
def safeOps (cfg : CacheCfg) (hashFn : List Message → Nat) (k t0 : Nat) :
    List (Nat × CacheEntry) → List CacheOp → Bool
  | _, [] => true
  | entries, op :: rest =>
    (match op with
     | CacheOp.clear => false
     | CacheOp.set m _ _ =>
       decide (hashFn m ≠ k) && decide (entries.length < cfg.max_entries)
     | CacheOp.get m now =>
       if hashFn m = k then decide (now - t0 < cfg.ttl) else true)
    && safeOps cfg hashFn k t0 (cacheStep cfg hashFn entries op) rest

/-- The entry stored under key `k` has response `r`, creation time `t0`,
and some hit count. -/
def entryAt (k : Nat) (r : String) (t0 : Nat)
    (es : List (Nat × CacheEntry)) : Prop :=
  ∃ h, alLookup k es = some ⟨r, t0, h⟩

/-- A concrete injective-on-demand hash for cache scenarios (the Rust
hash is `DefaultHasher` over the (role, content) sequence). -/
def c8hash : List Message → Nat :=
  fun ms => if ms = [Message.user "m1"] then 1 else 2

/-! ## Rate limiter (`core/rate_limit.rs`) -/

/-- `core/rate_limit.rs::RateLimitConfig` (window in seconds, as `ℚ`). -/
structure RateLimitConfig where
  max_requests : Nat
  window : ℚ
  burst : Nat

/-- `core/rate_limit.rs::TokenBucket`; `last_update` is replaced by the
explicit `elapsed` argument of each operation. -/
structure TokenBucket where
  tokens : ℚ
  max_tokens : ℚ
  refill_rate : ℚ
deriving DecidableEq

/-- `TokenBucket::new`. -/
def TokenBucket.new (cfg : RateLimitConfig) : TokenBucket :=
  let mx : ℚ := ((cfg.max_requests + cfg.burst : Nat) : ℚ)
  ⟨mx, mx, (cfg.max_requests : ℚ) / cfg.window⟩

/-- `TokenBucket::refill`: add `elapsed · refill_rate`, clamped to
`max_tokens`. -/
def TokenBucket.refill (b : TokenBucket) (elapsed : ℚ) : TokenBucket :=
  { b with tokens := min (b.tokens + elapsed * b.refill_rate) b.max_tokens }

/-- `TokenBucket::try_acquire`. -/
def TokenBucket.tryAcquire (b : TokenBucket) (n elapsed : ℚ) :
    TokenBucket × Bool :=
  let b1 := b.refill elapsed
  if n ≤ b1.tokens then ({ b1 with tokens := b1.tokens - n }, true)
  else (b1, false)

/-- A rate-limiter operation with the wall-clock time elapsed since the
touched bucket was last updated.  `tryAcquireN` covers `try_acquire`
(with `n = 1`) and creates the bucket on demand; the three read-style
operations refill an existing bucket (`available_tokens` /
`time_until_available` call `refill`). -/
inductive RLOp where
  | tryAcquireN (key : String) (n : ℚ) (elapsed : ℚ)
  | wouldAllow (key : String) (elapsed : ℚ)
  | timeUntilAllowed (key : String) (elapsed : ℚ)
  | remaining (key : String) (elapsed : ℚ)

/-- One `RateLimiter` operation applied to the bucket map. -/
def rlStep (cfg : RateLimitConfig)
    (buckets : List (String × TokenBucket)) (op : RLOp) :
    List (String × TokenBucket) :=
  match op with
  | RLOp.tryAcquireN key n e =>
    let b := (alLookup key buckets).getD (TokenBucket.new cfg)
    alInsert key (b.tryAcquire n e).1 buckets
  | RLOp.wouldAllow key e =>
    match alLookup key buckets with
    | some b => alInsert key (b.refill e) buckets
    | none => buckets
  | RLOp.timeUntilAllowed key e =>
    match alLookup key buckets with
    | some b => alInsert key (b.refill e) buckets
    | none => buckets
  | RLOp.remaining key e =>
    match alLookup key buckets with
    | some b => alInsert key (b.refill e) buckets
    | none => buckets

/-- Well-formedness of one operation: nonnegative elapsed time, and a
positive token count for acquisitions. -/
def rlOpWF : RLOp → Bool
  | RLOp.tryAcquireN _ n e => decide (0 < n) && decide (0 ≤ e)
  | RLOp.wouldAllow _ e => decide (0 ≤ e)
  | RLOp.timeUntilAllowed _ e => decide (0 ≤ e)
  | RLOp.remaining _ e => decide (0 ≤ e)

/-- The token-bucket invariant, together with the structural facts that
make it inductive. -/
def BucketInv (b : TokenBucket) : Prop :=
  0 ≤ b.tokens ∧ b.tokens ≤ b.max_tokens ∧ 0 ≤ b.refill_rate

/-! ## Path validation (`core/safety.rs::validate_path`) -/

/-- An input path, modelled as its component list plus an absoluteness
flag (components may include `..` and `.`). -/
structure PathInput where
  absolute : Bool
  comps : List String
deriving DecidableEq

/-- Rendering of an absolute component list, for the substring test
against sensitive patterns (`Path::to_string_lossy`). -/
def renderPath (comps : List String) : String :=
  "/" ++ String.intercalate "/" comps

/-- Lexical resolution of `..` and `.` components - what
`fs::canonicalize` does to the path shape when it succeeds. -/
def resolveDots (comps : List String) : List String :=
  comps.foldl
    (fun acc c =>
      if c == ".." then acc.dropLast
      else if c == "." then acc
      else acc ++ [c]) []

/-- `InputSanitizer::validate_path`.  `canon` models `fs::canonicalize`
(it consults the real filesystem: it fails on nonexistent paths and
resolves symlinks); on failure the code falls back to the unresolved
absolute path.  Then: working-directory prefix check (component-wise,
as `Path::starts_with`), then sensitive-pattern substring check. -/
def validatePath (cfg : SecurityConfig)
    (canon : List String → Option (List String)) (p : PathInput) :
    Except String (List String) :=
  let abs := if p.absolute then p.comps else cfg.working_dir ++ p.comps
  let canonical := (canon abs).getD abs
  if !cfg.allow_global_access && !(cfg.working_dir.isPrefixOf canonical) then
    Except.error "Access denied: path is outside working directory"
  else
    match cfg.sensitive_files.find?
        (fun s => strContains (renderPath canonical) s) with
    | some s =>
      Except.error ("Access denied: matches sensitive file pattern " ++ s)
    | none => Except.ok canonical

/-! ## Helper lemmas -/

/-- Appending the same list on the right preserves the suffix relation. -/
theorem suffix_append_same {α : Type} {l1 l2 : List α} (l3 : List α)
    (h : l1 <:+ l2) : l1 ++ l3 <:+ l2 ++ l3 := by
  obtain ⟨t, rfl⟩ := h
  exact ⟨t, (List.append_assoc t l1 l3).symm⟩

/-- Looking up the key just inserted returns the inserted value. -/
theorem alLookup_alInsert_self {α β : Type} [DecidableEq α] (k : α) (v : β)
    (l : List (α × β)) : alLookup k (alInsert k v l) = some v := by
  induction l with
  | nil => simp [alInsert, alLookup]
  | cons kv rest ih =>
    by_cases h : kv.1 = k
    · simp [alInsert, alLookup, h]
    · simp [alInsert, alLookup, h, ih]

/-- Inserting under a different key does not change a lookup. -/
theorem alLookup_alInsert_ne {α β : Type} [DecidableEq α] {k k2 : α}
    (v : β) (l : List (α × β)) (h : k ≠ k2) :
    alLookup k (alInsert k2 v l) = alLookup k l := by
  induction l with
  | nil => simp [alInsert, alLookup, Ne.symm h]
  | cons kv rest ih =>
    rcases kv with ⟨k1, v1⟩
    by_cases h2 : k1 = k2
    · subst h2
      simp [alInsert, alLookup, Ne.symm h]
    · simp [alInsert, alLookup, h2, ih]

/-- Removing a different key does not change a lookup. -/
theorem alLookup_alRemove_ne {α β : Type} [DecidableEq α] {k k2 : α}
    (l : List (α × β)) (h : k ≠ k2) :
    alLookup k (alRemove k2 l) = alLookup k l := by
  induction l with
  | nil => simp [alRemove, alLookup]
  | cons kv rest ih =>
    rcases kv with ⟨k1, v1⟩
    by_cases h2 : k1 = k2
    · subst h2
      simp [alRemove, alLookup, Ne.symm h]
    · simp [alRemove, alLookup, h2, ih]

/-- Folding tool inserts for keys other than `x` leaves `x` unchanged. -/
theorem foldl_alInsert_not_mem {x name : String} (tools : List String)
    (m0 : List (String × String)) (hx : x ∉ tools) :
    alLookup x (tools.foldl (fun m t => alInsert t name m) m0) =
      alLookup x m0 := by
  induction tools generalizing m0 with
  | nil => rfl
  | cons t rest ih =>
    have hxt : x ≠ t := fun e => hx (e ▸ List.mem_cons_self t rest)
    have hxr : x ∉ rest := fun e => hx (List.mem_cons_of_mem t e)
    simp only [List.foldl_cons]
    rw [ih _ hxr, alLookup_alInsert_ne _ _ hxt]

/-- After folding the tool inserts of one server, every advertised tool
maps to that server. -/
theorem foldl_alInsert_mem {x name : String} (tools : List String)
    (m0 : List (String × String)) (hx : x ∈ tools) :
    alLookup x (tools.foldl (fun m t => alInsert t name m) m0) =
      some name := by
  induction tools generalizing m0 with
  | nil => cases hx
  | cons t rest ih =>
    by_cases hr : x ∈ rest
    · simp only [List.foldl_cons]
      exact ih _ hr
    · have hxt : x = t := by
        rcases List.mem_cons.mp hx with h | h
        · exact h
        · exact absurd h hr
      simp only [List.foldl_cons]
      rw [foldl_alInsert_not_mem _ _ hr, hxt, alLookup_alInsert_self]

/-! ## C1 -/

/-- C1: for every shell command whose lowercased text contains a
configured blocklist entry, the execute_command skill denies the request
(`validate_command` errors) and never reaches the spawn step. -/
theorem blocked_command_never_spawns (safety : SafetySettings)
    (cfg : SecurityConfig) (cmd : String)
    (h : ∃ b ∈ cfg.blocked_commands,
      strContains (lowerStr cmd) (lowerStr b) = true) :
    (executeCommandGate safety cfg cmd).isDenied = true := by
  have hfind :
      (cfg.blocked_commands.find?
        (fun b => strContains (lowerStr cmd) (lowerStr b))).isSome :=
    List.find?_isSome.mpr h
  obtain ⟨b, hb⟩ := Option.isSome_iff_exists.mp hfind
  unfold executeCommandGate
  split
  · rfl
  · simp only [riskGate, validateCommand]
    rw [hb]
    rfl

/-- Witness for C1: `rm -rf /` matches the default blocklist and the
skill denies it. -/
theorem blocked_command_never_spawns_witness :
    (∃ b ∈ (SecurityConfig.default []).blocked_commands,
      strContains (lowerStr "rm -rf /") (lowerStr b) = true)
    ∧ (executeCommandGate ⟨true, true, true, [], []⟩
        (SecurityConfig.default []) "rm -rf /").isDenied = true :=
  ⟨by decide, blocked_command_never_spawns _ _ _ (by decide)⟩

/-! ## C2 -/

/-- The first optimize loop leaves at most `max_messages` messages. -/
theorem trimByCount_length_le (mx : Nat) (msgs : List Message) (t : Nat) :
    (trimByCount mx msgs t).1.length ≤ mx := by
  induction msgs generalizing t with
  | nil => simp [trimByCount]
  | cons m rest ih =>
    simp only [trimByCount]
    split
    · exact ih _
    · next h => simpa using Nat.le_of_not_lt (by simpa using h)

/-- The first optimize loop removes only the oldest messages. -/
theorem trimByCount_suffix (mx : Nat) (msgs : List Message) (t : Nat) :
    (trimByCount mx msgs t).1 <:+ msgs := by
  induction msgs generalizing t with
  | nil => simp [trimByCount]
  | cons m rest ih =>
    simp only [trimByCount]
    split
    · exact (ih _).trans (List.suffix_cons m rest)
    · exact List.suffix_refl _

/-- The second optimize loop ends under the character cap or at the
minimum recent count, and removes only the oldest messages. -/
theorem trimByChars_posts (mc mr : Nat) (msgs : List Message) (t : Nat) :
    ((trimByChars mc mr msgs t).2 ≤ mc
      ∨ (trimByChars mc mr msgs t).1.length ≤ mr)
    ∧ (trimByChars mc mr msgs t).1 <:+ msgs := by
  induction msgs generalizing t with
  | nil => simp [trimByChars]
  | cons m rest ih =>
    simp only [trimByChars]
    split
    · exact ⟨(ih _).1, (ih _).2.trans (List.suffix_cons m rest)⟩
    · next hcond =>
      refine ⟨?_, List.suffix_refl _⟩
      have h2 : ¬(mc < t ∧ mr < (m :: rest).length) := by simpa using hcond
      simp only
      omega

/-- One `add_message` establishes the buffer invariant from any starting
state, preserves the configuration, and leaves a suffix of the appended
sequence. -/
theorem addMessage_establishes (st : Context) (m : Message) :
    (st.addMessage m).config = st.config
    ∧ (st.addMessage m).messages.length ≤ st.config.max_messages
    ∧ ((st.addMessage m).total_chars ≤ st.config.max_chars
        ∨ (st.addMessage m).messages.length ≤ st.config.min_recent_messages)
    ∧ (st.addMessage m).messages <:+ st.messages ++ [m] := by
  unfold Context.addMessage Context.optimize
  refine ⟨rfl, ?_, ?_, ?_⟩
  · exact le_trans
      ((trimByChars_posts _ _ _ _).2.length_le)
      (trimByCount_length_le _ _ _)
  · exact (trimByChars_posts _ _ _ _).1
  · exact (trimByChars_posts _ _ _ _).2.trans (trimByCount_suffix _ _ _)

/-- Folding appends preserves the configuration and the invariant, and
only ever drops the oldest entries. -/
theorem context_fold_inv (cfg : ContextConfig) (ms : List Message) :
    ∀ st : Context, st.config = cfg →
      st.messages.length ≤ cfg.max_messages →
      (st.total_chars ≤ cfg.max_chars
        ∨ st.messages.length ≤ cfg.min_recent_messages) →
      ((ms.foldl Context.addMessage st).config = cfg
       ∧ (ms.foldl Context.addMessage st).messages.length ≤ cfg.max_messages
       ∧ ((ms.foldl Context.addMessage st).total_chars ≤ cfg.max_chars
          ∨ (ms.foldl Context.addMessage st).messages.length ≤
            cfg.min_recent_messages)
       ∧ (ms.foldl Context.addMessage st).messages <:+ st.messages ++ ms) := by
  induction ms with
  | nil =>
    intro st hcfg h1 h2
    exact ⟨hcfg, h1, h2, by simp⟩
  | cons m rest ih =>
    intro st hcfg h1 h2
    obtain ⟨e0, e1, e2, e3⟩ := addMessage_establishes st m
    obtain ⟨f0, f1, f2, f3⟩ := ih (st.addMessage m) (e0.trans hcfg)
      (hcfg ▸ e1) (hcfg ▸ e2)
    refine ⟨f0, f1, f2, ?_⟩
    simp only [List.foldl_cons]
    calc (rest.foldl Context.addMessage (st.addMessage m)).messages
        <:+ (st.addMessage m).messages ++ rest := f3
      _ <:+ (st.messages ++ [m]) ++ rest := suffix_append_same rest e3
      _ = st.messages ++ m :: rest := by simp

/-- C2: after each append (each of which runs `optimize`), the context
buffer holds at most `max_messages` messages, and either the character
total is at most `max_chars` or at most `min_recent_messages` messages
remain; trimming removes only the oldest entries - the buffer is always
a suffix of the appended sequence, in insertion order. -/
theorem context_invariant_after_each_append (cfg : ContextConfig)
    (msgs : List Message) (i : Nat) :
    ((msgs.take i).foldl Context.addMessage
        (Context.empty cfg)).messages.length ≤ cfg.max_messages
    ∧ (((msgs.take i).foldl Context.addMessage
          (Context.empty cfg)).total_chars ≤ cfg.max_chars
       ∨ ((msgs.take i).foldl Context.addMessage
            (Context.empty cfg)).messages.length ≤ cfg.min_recent_messages)
    ∧ ((msgs.take i).foldl Context.addMessage
        (Context.empty cfg)).messages <:+ msgs.take i := by
  obtain ⟨h0, h1, h2, h3⟩ := context_fold_inv cfg (msgs.take i)
    (Context.empty cfg) rfl (by simp [Context.empty])
    (Or.inl (by simp [Context.empty]))
  refine ⟨h1, h2, ?_⟩
  simpa [Context.empty] using h3

/-! ## C3 -/

/-- C3 failing input: with the default configuration rooted at
`/home/user/project` and a nonexistent relative path
`a/../../../../etc/hosts2` (so `fs::canonicalize` fails and the code
falls back to the unresolved path), `validate_path` accepts the path even
though global access is off and its resolved form `/etc/hosts2` lies
outside the working directory. -/
theorem path_validation_escape_on_canonicalize_failure :
    validatePath (SecurityConfig.default ["home", "user", "project"])
        (fun _ => none)
        ⟨false, ["a", "..", "..", "..", "..", "etc", "hosts2"]⟩ =
      Except.ok ["home", "user", "project", "a", "..", "..", "..", "..",
        "etc", "hosts2"]
    ∧ (SecurityConfig.default
        ["home", "user", "project"]).allow_global_access = false
    ∧ (["home", "user", "project"].isPrefixOf
        (resolveDots ["home", "user", "project", "a", "..", "..", "..",
          "..", "etc", "hosts2"])) = false :=
  ⟨rfl, rfl, by decide⟩

/-! ## C4 -/

/-- Counterexample to C4 as stated: registering server A and then server
B, both advertising tool `x`, leaves the reverse map pointing at B (the
`HashMap::insert` overwrites), not at A, and `call_tool("x")` routes
to B. -/
theorem mcp_collision_first_wins_refuted :
    alLookup "x"
        (((McpRegistry.empty.addServer "A" ["x"]).addServer "B"
          ["x"]).tool_map) = some "B"
    ∧ alLookup "x"
        (((McpRegistry.empty.addServer "A" ["x"]).addServer "B"
          ["x"]).tool_map) ≠ some "A"
    ∧ ((McpRegistry.empty.addServer "A" ["x"]).addServer "B"
        ["x"]).callToolRoute "x" = Except.ok "B" :=
  ⟨by decide, by decide, rfl⟩

/-- C4 (amended): on a tool-name collision across servers the
last-registered server wins: after registering A then B, both advertising
`x`, the reverse map contains `x → B` and `call_tool("x")` routes to B. -/
theorem mcp_collision_last_wins (reg : McpRegistry) (a b x : String)
    (toolsA toolsB : List String) (ha : x ∈ toolsA) (hb : x ∈ toolsB) :
    alLookup x ((reg.addServer a toolsA).addServer b toolsB).tool_map =
      some b
    ∧ ((reg.addServer a toolsA).addServer b toolsB).callToolRoute x =
      Except.ok b := by
  have hmap :
      alLookup x ((reg.addServer a toolsA).addServer b toolsB).tool_map =
        some b :=
    foldl_alInsert_mem toolsB _ hb
  refine ⟨hmap, ?_⟩
  unfold McpRegistry.callToolRoute
  rw [hmap]
  have hm : b ∈ ((reg.addServer a toolsA).addServer b toolsB).clients := by
    simp [McpRegistry.addServer]
  simp [hm]

/-- Witness for C4 (amended) at concrete servers A and B sharing `x`. -/
theorem mcp_collision_last_wins_witness :
    ("x" ∈ ["x", "y"]) ∧ ("x" ∈ ["x"])
    ∧ alLookup "x" ((McpRegistry.empty.addServer "A"
        ["x", "y"]).addServer "B" ["x"]).tool_map = some "B"
    ∧ ((McpRegistry.empty.addServer "A" ["x", "y"]).addServer "B"
        ["x"]).callToolRoute "x" = Except.ok "B" :=
  ⟨by decide, by decide,
   (mcp_collision_last_wins McpRegistry.empty "A" "B" "x" ["x", "y"] ["x"]
     (by decide) (by decide)).1,
   (mcp_collision_last_wins McpRegistry.empty "A" "B" "x" ["x", "y"] ["x"]
     (by decide) (by decide)).2⟩

/-! ## C5 -/

/-- C5 failing input: `git status` is in the low-risk (read-only) list of
`assess_command_risk`, matches no blocklist entry, no dangerous pattern
and no high-risk verb, yet the classifier returns `Medium` because the
medium-risk list (which contains `"git "`) is scanned before the low-risk
list; the low-list entries `git status`, `git log`, `cat ` are dead. -/
theorem git_status_classified_medium :
    validateCommand (SecurityConfig.default []) "git status" =
      Except.ok (CommandRisk.Medium "Contains modification command: git ")
    ∧ "git status" ∈ lowRiskPatterns :=
  ⟨rfl, by decide⟩

/-! ## C6 -/

/-- Counterexample to C6 as stated: the message appended for a tool call
does not have the form `<tool_result id="X">...</tool_result>`; the
attribute is `tool_use_id` and the payload is wrapped in newlines. -/
theorem tool_result_id_attribute_refuted :
    fmtToolResult "c1" "a.txt" =
      "<tool_result tool_use_id=\"c1\">\na.txt\n</tool_result>"
    ∧ strStartsWith (fmtToolResult "c1" "a.txt") "<tool_result id=\"" =
      false := by
  exact ⟨rfl, by decide⟩

/-- The closed form of the tool-call loop body. -/
theorem toolLoopBody_spec (exec : ToolCall → Except String String)
    (calls : List ToolCall) :
    ∀ (history : List Message) (events : List ToolEvent),
      toolLoopBody exec calls history events =
        (history ++ calls.map (toolResultMessage exec),
         events ++ calls.flatMap
           (fun c => [ToolEvent.exec c,
             ToolEvent.append (toolResultMessage exec c)])) := by
  induction calls with
  | nil => intro h e; simp [toolLoopBody]
  | cons c rest ih =>
    intro h e
    simp only [toolLoopBody, ih, List.map_cons, List.flatMap_cons,
      List.append_assoc, List.cons_append, List.nil_append,
      List.singleton_append]

/-- C6 (amended): for every model turn with tool calls, the loop appends
to the history exactly one user message per call, in the order received,
of the form `<tool_result tool_use_id="X">\n...\n</tool_result>` with the
call id `X` echoed verbatim (see `fmtToolResult`), and the event log
interleaves as execute/append per call, so each result is appended before
the next call is executed. -/
theorem tool_results_appended_in_order
    (exec : ToolCall → Except String String) (history : List Message)
    (content : String) (calls : List ToolCall) :
    processToolTurn exec history content calls =
      (history ++ Message.assistant content ::
        calls.map (toolResultMessage exec),
       calls.flatMap (fun c => [ToolEvent.exec c,
         ToolEvent.append (toolResultMessage exec c)])) := by
  unfold processToolTurn
  rw [toolLoopBody_spec]
  simp

/-! ## C7 -/

/-- C7 failing input: a context holding the single message `"é"` (two
UTF-8 bytes, one character) projected to a budget of 1 byte: the
truncation slice `content[..1]` falls inside the character and panics
(`none`), whereas on ASCII content the truncation path returns the
newest message truncated to the budget as the claim describes. -/
theorem budget_truncation_panics_on_multibyte :
    Context.getMessagesForBudget
        ⟨[Message.user "é"], ⟨50, 100, 5, false⟩, 2⟩ 1 = none
    ∧ Context.getMessagesForBudget
        ⟨[Message.user "hello"], ⟨50, 100, 5, false⟩, 5⟩ 3 =
      some [Message.user "hel"] :=
  ⟨by decide, by decide⟩

/-! ## C8 -/

/-- One safe operation preserves the stored entry (up to its hit count). -/
theorem cacheStep_preserves_entry (cfg : CacheCfg)
    (hashFn : List Message → Nat) (k : Nat) (r : String) (t0 : Nat)
    (es : List (Nat × CacheEntry)) (op : CacheOp)
    (hop : (match op with
      | CacheOp.clear => false
      | CacheOp.set m _ _ =>
        decide (hashFn m ≠ k) && decide (es.length < cfg.max_entries)
      | CacheOp.get m now =>
        if hashFn m = k then decide (now - t0 < cfg.ttl) else true) = true)
    (h : entryAt k r t0 es) :
    entryAt k r t0 (cacheStep cfg hashFn es op) := by
  obtain ⟨hits, hl⟩ := h
  cases op with
  | clear => simp at hop
  | set m r2 now =>
    have hop2 : (decide (hashFn m ≠ k)
        && decide (es.length < cfg.max_entries)) = true := hop
    simp only [Bool.and_eq_true, decide_eq_true_eq] at hop2
    obtain ⟨hne, hlen⟩ := hop2
    have hno : ¬(cfg.max_entries ≤ es.length) := by omega
    simp only [cacheStep, cacheSet, hno, ite_false, if_false]
    exact ⟨hits, by rw [alLookup_alInsert_ne _ _ (Ne.symm hne)]; exact hl⟩
  | get m now =>
    have hop2 : (if hashFn m = k then decide (now - t0 < cfg.ttl)
        else true) = true := hop
    by_cases hk : hashFn m = k
    · rw [if_pos hk, decide_eq_true_eq] at hop2
      subst hk
      simp only [cacheStep, cacheGet, hl, hop2, ite_true]
      exact ⟨hits + 1, alLookup_alInsert_self _ _ _⟩
    · simp only [cacheStep, cacheGet]
      cases he : alLookup (hashFn m) es with
      | none => simp only [he]; exact ⟨hits, hl⟩
      | some e =>
        simp only [he]
        by_cases hfresh : now - e.created_at < cfg.ttl
        · simp only [hfresh, ite_true]
          exact ⟨hits, by rw [alLookup_alInsert_ne _ _ (Ne.symm hk)]; exact hl⟩
        · simp only [hfresh, ite_false]
          exact ⟨hits, by rw [alLookup_alRemove_ne _ (Ne.symm hk)]; exact hl⟩

/-- A safe operation sequence preserves the stored entry. -/
theorem safeOps_preserves_entry (cfg : CacheCfg)
    (hashFn : List Message → Nat) (k : Nat) (r : String) (t0 : Nat)
    (ops : List CacheOp) :
    ∀ es, safeOps cfg hashFn k t0 es ops = true → entryAt k r t0 es →
      entryAt k r t0 (ops.foldl (cacheStep cfg hashFn) es) := by
  induction ops with
  | nil => intro es _ h; exact h
  | cons op rest ih =>
    intro es hs h
    simp only [safeOps, Bool.and_eq_true] at hs
    exact ih _ hs.2 (cacheStep_preserves_entry cfg hashFn k r t0 es op hs.1 h)

/-- Counterexample to C8 as stated: with capacity 1, `set(m1,r1)` followed
by a `set(m2,r2)` for a different (non-colliding) key evicts the `m1`
entry, so an immediate `get(m1)` (well within the TTL, no clear) returns
`none` instead of `some r1`. -/
theorem cache_set_get_refuted :
    c8hash [Message.user "m1"] ≠ c8hash [Message.user "m2"]
    ∧ (cacheGet ⟨1, 100⟩ c8hash [Message.user "m1"] 0
        (cacheSet ⟨1, 100⟩ c8hash [Message.user "m2"] "r2" 0
          (cacheSet ⟨1, 100⟩ c8hash [Message.user "m1"] "r1" 0 []))).1 =
      none :=
  ⟨by decide, by decide⟩

/-- C8 (amended): after `set(m, r)`, with no intervening `clear`, no
intervening `set` for a colliding key, and every intervening `set`
happening while the cache is below capacity (capacity eviction could
otherwise remove the entry), every `get(m)` within the TTL returns
`some r` without touching the provider, and increments the entry's hit
count by one while preserving its response and creation time. -/
theorem cache_set_then_get (cfg : CacheCfg) (hashFn : List Message → Nat)
    (es0 : List (Nat × CacheEntry)) (m : List Message) (r : String)
    (t0 t : Nat) (ops : List CacheOp)
    (hsafe : safeOps cfg hashFn (hashFn m) t0
      (cacheSet cfg hashFn m r t0 es0) ops = true)
    (ht : t - t0 < cfg.ttl) :
    (cacheGet cfg hashFn m t (ops.foldl (cacheStep cfg hashFn)
        (cacheSet cfg hashFn m r t0 es0))).1 = some r
    ∧ (alLookup (hashFn m) (ops.foldl (cacheStep cfg hashFn)
        (cacheSet cfg hashFn m r t0 es0))).map CacheEntry.response = some r
    ∧ (alLookup (hashFn m) (ops.foldl (cacheStep cfg hashFn)
        (cacheSet cfg hashFn m r t0 es0))).map CacheEntry.created_at =
      some t0
    ∧ (alLookup (hashFn m) (cacheGet cfg hashFn m t
        (ops.foldl (cacheStep cfg hashFn)
          (cacheSet cfg hashFn m r t0 es0))).2).map CacheEntry.hits =
      (alLookup (hashFn m) (ops.foldl (cacheStep cfg hashFn)
        (cacheSet cfg hashFn m r t0 es0))).map (fun e => e.hits + 1) := by
  have h0 : entryAt (hashFn m) r t0 (cacheSet cfg hashFn m r t0 es0) :=
    ⟨0, by unfold cacheSet; exact alLookup_alInsert_self _ _ _⟩
  obtain ⟨hits, hl⟩ :=
    safeOps_preserves_entry cfg hashFn (hashFn m) r t0 ops _ hsafe h0
  refine ⟨?_, ?_, ?_, ?_⟩
  · simp [cacheGet, hl, ht]
  · simp [hl]
  · simp [hl]
  · simp [cacheGet, hl, ht, alLookup_alInsert_self]

/-- Witness for C8 (amended): set `m1 → r1` at time 0, then a safe
below-capacity set for `m2` at time 5 and a within-TTL get at time 10;
the final get at time 20 returns `r1`. -/
theorem cache_set_then_get_witness :
    safeOps ⟨2, 100⟩ c8hash (c8hash [Message.user "m1"]) 0
        (cacheSet ⟨2, 100⟩ c8hash [Message.user "m1"] "r1" 0 [])
        [CacheOp.set [Message.user "m2"] "r2" 5,
         CacheOp.get [Message.user "m1"] 10] = true
    ∧ 20 - 0 < (⟨2, 100⟩ : CacheCfg).ttl
    ∧ (cacheGet ⟨2, 100⟩ c8hash [Message.user "m1"] 20
        ([CacheOp.set [Message.user "m2"] "r2" 5,
          CacheOp.get [Message.user "m1"] 10].foldl
          (cacheStep ⟨2, 100⟩ c8hash)
          (cacheSet ⟨2, 100⟩ c8hash [Message.user "m1"] "r1" 0 []))).1 =
      some "r1" :=
  ⟨by decide, by decide,
   (cache_set_then_get ⟨2, 100⟩ c8hash [] [Message.user "m1"] "r1" 0 20
     [CacheOp.set [Message.user "m2"] "r2" 5,
      CacheOp.get [Message.user "m1"] 10] (by decide) (by decide)).1⟩

/-! ## C9 -/

/-- Membership in an overwrite-insert: either the inserted pair or an
original element. -/
theorem mem_alInsert {α β : Type} [DecidableEq α] (k : α) (v : β)
    (l : List (α × β)) : ∀ kb ∈ alInsert k v l, kb = (k, v) ∨ kb ∈ l := by
  induction l with
  | nil =>
    intro kb h
    simp [alInsert] at h
    exact Or.inl h
  | cons kv rest ih =>
    intro kb h
    by_cases hk : kv.1 = k
    · simp only [alInsert, hk, ite_true] at h
      rcases List.mem_cons.mp h with h1 | h1
      · exact Or.inl h1
      · exact Or.inr (List.mem_cons_of_mem _ h1)
    · simp only [alInsert, hk, ite_false] at h
      rcases List.mem_cons.mp h with h1 | h1
      · exact Or.inr (h1 ▸ List.mem_cons_self kv rest)
      · rcases ih kb h1 with h2 | h2
        · exact Or.inl h2
        · exact Or.inr (List.mem_cons_of_mem _ h2)

/-- A successful lookup is a member of the association list. -/
theorem alLookup_mem {α β : Type} [DecidableEq α] {k : α}
    {l : List (α × β)} {b : β} (h : alLookup k l = some b) : (k, b) ∈ l := by
  induction l with
  | nil => simp [alLookup] at h
  | cons kv rest ih =>
    rcases kv with ⟨k1, v1⟩
    by_cases hk : k1 = k
    · simp only [alLookup, hk, ite_true, Option.some.injEq] at h
      subst hk
      subst h
      exact List.mem_cons_self _ _
    · simp only [alLookup, hk, ite_false] at h
      exact List.mem_cons_of_mem _ (ih h)

/-- A fresh bucket satisfies the invariant (window durations are
nonnegative). -/
theorem BucketInv_new (cfg : RateLimitConfig) (hw : 0 ≤ cfg.window) :
    BucketInv (TokenBucket.new cfg) := by
  unfold BucketInv TokenBucket.new
  refine ⟨Nat.cast_nonneg _, le_refl _, div_nonneg (Nat.cast_nonneg _) hw⟩

/-- Refilling preserves the invariant: the clamp keeps the tokens at most
`max_tokens`, and adding nonnegative refill keeps them nonnegative. -/
theorem BucketInv_refill (b : TokenBucket) (e : ℚ) (hb : BucketInv b)
    (he : 0 ≤ e) : BucketInv (b.refill e) := by
  obtain ⟨h0, h1, h2⟩ := hb
  exact ⟨le_min (add_nonneg h0 (mul_nonneg he h2)) (h0.trans h1),
    min_le_right _ _, h2⟩

/-- A (possibly failing) acquisition preserves the invariant: a success
subtracts at most the available tokens. -/
theorem BucketInv_tryAcquire (b : TokenBucket) (n e : ℚ)
    (hb : BucketInv b) (hn : 0 ≤ n) (he : 0 ≤ e) :
    BucketInv (b.tryAcquire n e).1 := by
  obtain ⟨h0, h1, h2⟩ := BucketInv_refill b e hb he
  by_cases hc : n ≤ (b.refill e).tokens
  · simp only [TokenBucket.tryAcquire, hc, ite_true]
    exact ⟨sub_nonneg.mpr hc, le_trans (sub_le_self _ hn) h1, h2⟩
  · simp only [TokenBucket.tryAcquire, hc, ite_false]
    exact ⟨h0, h1, h2⟩

/-- The refill-an-existing-bucket pattern shared by `would_allow`,
`time_until_allowed` and `remaining` preserves the map invariant. -/
theorem rl_refill_case (key : String) (e : ℚ)
    (bs : List (String × TokenBucket)) (he : 0 ≤ e)
    (hbs : ∀ kb ∈ bs, BucketInv kb.2) :
    ∀ kb ∈ (match alLookup key bs with
      | some b => alInsert key (b.refill e) bs
      | none => bs), BucketInv kb.2 := by
  cases hlk : alLookup key bs with
  | none => simpa using hbs
  | some b0 =>
    simp only
    intro kb hkb
    rcases mem_alInsert _ _ _ kb hkb with rfl | hmem
    · exact BucketInv_refill _ _ (hbs _ (alLookup_mem hlk)) he
    · exact hbs _ hmem

/-- One well-formed limiter operation preserves the map invariant. -/
theorem rlStep_preserves (cfg : RateLimitConfig) (hw : 0 ≤ cfg.window)
    (bs : List (String × TokenBucket)) (op : RLOp)
    (hop : rlOpWF op = true) (hbs : ∀ kb ∈ bs, BucketInv kb.2) :
    ∀ kb ∈ rlStep cfg bs op, BucketInv kb.2 := by
  cases op with
  | tryAcquireN key n e =>
    have hop2 : (decide (0 < n) && decide (0 ≤ e)) = true := hop
    simp only [Bool.and_eq_true, decide_eq_true_eq] at hop2
    obtain ⟨hn, he⟩ := hop2
    simp only [rlStep]
    intro kb hkb
    rcases mem_alInsert _ _ _ kb hkb with rfl | hmem
    · apply BucketInv_tryAcquire _ _ _ ?_ (le_of_lt hn) he
      cases hlk : alLookup key bs with
      | none => simpa [hlk] using BucketInv_new cfg hw
      | some b0 => simpa [hlk] using hbs _ (alLookup_mem hlk)
    · exact hbs _ hmem
  | wouldAllow key e =>
    have he : 0 ≤ e := by simpa [rlOpWF] using hop
    simpa only [rlStep] using rl_refill_case key e bs he hbs
  | timeUntilAllowed key e =>
    have he : 0 ≤ e := by simpa [rlOpWF] using hop
    simpa only [rlStep] using rl_refill_case key e bs he hbs
  | remaining key e =>
    have he : 0 ≤ e := by simpa [rlOpWF] using hop
    simpa only [rlStep] using rl_refill_case key e bs he hbs

/-- C9: for every configuration with a nonnegative window and every
sequence of well-formed operations (on-demand bucket creation,
`try_acquire` / `try_acquire_n` with positive token counts,
`would_allow`, `time_until_allowed`, `remaining`), every bucket in the
map satisfies `0 ≤ tokens ≤ max_tokens` afterwards - and hence after
every intermediate operation, since every prefix of a well-formed
sequence is well-formed. -/
theorem rate_limiter_invariant (cfg : RateLimitConfig)
    (hw : 0 ≤ cfg.window) (ops : List RLOp)
    (hops : ops.all rlOpWF = true) :
    ∀ kb ∈ ops.foldl (rlStep cfg) [], BucketInv kb.2 := by
  suffices general : ∀ (l : List RLOp) (bs : List (String × TokenBucket)),
      l.all rlOpWF = true → (∀ kb ∈ bs, BucketInv kb.2) →
      ∀ kb ∈ l.foldl (rlStep cfg) bs, BucketInv kb.2 by
    exact general ops [] hops (by simp)
  intro l
  induction l with
  | nil => intro bs _ h; simpa using h
  | cons op rest ih =>
    intro bs hall hbs
    simp only [List.all_cons, Bool.and_eq_true] at hall
    exact ih _ hall.2 (rlStep_preserves cfg hw bs op hall.1 hbs)

/-- Witness for C9: config `{max_requests := 5, window := 1s, burst := 2}`
(so `max_tokens = 7`, `refill_rate = 5`), one acquisition of one token at
zero elapsed time; the resulting bucket is `⟨6, 7, 5⟩` and satisfies the
invariant. -/
theorem rate_limiter_invariant_witness :
    (0 : ℚ) ≤ (RateLimitConfig.mk 5 1 2).window
    ∧ ([RLOp.tryAcquireN "k" 1 0].all rlOpWF = true)
    ∧ BucketInv ⟨6, 7, 5⟩ := by
  refine ⟨by norm_num, by norm_num [rlOpWF], ?_⟩
  have hfold : [RLOp.tryAcquireN "k" 1 0].foldl
      (rlStep (RateLimitConfig.mk 5 1 2)) [] =
      [("k", (⟨6, 7, 5⟩ : TokenBucket))] := by
    norm_num [rlStep, alLookup, alInsert, TokenBucket.new,
      TokenBucket.tryAcquire, TokenBucket.refill]
  have hinv := rate_limiter_invariant (RateLimitConfig.mk 5 1 2)
    (by norm_num) [RLOp.tryAcquireN "k" 1 0] (by norm_num [rlOpWF])
  have hmem : ("k", (⟨6, 7, 5⟩ : TokenBucket)) ∈
      [RLOp.tryAcquireN "k" 1 0].foldl
        (rlStep (RateLimitConfig.mk 5 1 2)) [] := by
    rw [hfold]
    exact List.mem_singleton_self _
  exact hinv _ hmem

/-! ## C10 -/

/-- C10: when `settings.safety.allowed_commands` is non-empty,
`execute_command` denies every command whose first whitespace-separated
token is not in the list - uniformly in the sanitizer configuration, i.e.
before any risk classification and before any spawn; when the list is
empty the gate is skipped and the decision is exactly the risk-gate
decision. -/
theorem allowlist_gate_behaviour (safety : SafetySettings)
    (cfg : SecurityConfig) (cmd : String) :
    (safety.allowed_commands ≠ [] →
      safety.allowed_commands.contains (firstToken cmd) = false →
      executeCommandGate safety cfg cmd =
        ExecDecision.denied
          ("SECURITY: Command " ++ firstToken cmd ++ " not in allowed list"))
    ∧ (safety.allowed_commands = [] →
      executeCommandGate safety cfg cmd = riskGate cfg cmd) := by
  constructor
  · intro h1 h2
    have he : safety.allowed_commands.isEmpty = false := by
      simp [List.isEmpty_iff, h1]
    have hmem : firstToken cmd ∉ safety.allowed_commands := by
      simpa using h2
    unfold executeCommandGate
    simp [he, hmem]
  · intro h1
    unfold executeCommandGate
    simp [h1]

/-- Witness for C10: with allowlist `["ls"]` the command `pwd` is denied;
with an empty allowlist the gate is skipped. -/
theorem allowlist_gate_behaviour_witness :
    executeCommandGate ⟨true, true, true, ["ls"], []⟩
        (SecurityConfig.default []) "pwd" =
      ExecDecision.denied
        ("SECURITY: Command " ++ firstToken "pwd" ++ " not in allowed list")
    ∧ executeCommandGate ⟨true, true, true, [], []⟩
        (SecurityConfig.default []) "ls -la" =
      riskGate (SecurityConfig.default []) "ls -la" :=
  ⟨(allowlist_gate_behaviour ⟨true, true, true, ["ls"], []⟩
      (SecurityConfig.default []) "pwd").1 (by decide) (by decide),
   (allowlist_gate_behaviour ⟨true, true, true, [], []⟩
      (SecurityConfig.default []) "ls -la").2 rfl⟩

end Webrana
